import Mathlib

/-!
Shallow embedding of the tour-optimization core of `routesolver.py` (and the
reverse-cycle companion used by `main.py`), together with theorems settling
the specification claims about it.

Modelling conventions:

* Python lists of city indices become `List Nat`; costs (Python floats fed in
  from a travel-time matrix) become `Rat`; the complete cost matrix
  (a Python dict over all index pairs) becomes a total function
  `Nat → Nat → Rat`.
* Python slicing translates as: `tour[a:b]` is `(tour.take b).drop a`,
  `tour[a:]` is `tour.drop a`, `tour[:b]` is `tour.take b`, and the slice
  assignments in `reversed_sections` use the Python semantics that the list
  may change length: `copy[a:] = xs` produces `copy.take a ++ xs`, and
  `copy[:b] = ys` produces `ys ++ copy.drop b`.
* Randomness (the `random.shuffle` calls inside `all_pairs` and the random
  initial tours) is modelled by passing the shuffle outcomes in explicitly:
  a theorem quantifying over all permutations of the relevant range covers
  every outcome of the random source.
* The hillclimb `while` loop is modelled with an explicit fuel argument equal
  to `max_evaluations`; the lemma `climb_loop_fuel_stable` below shows the
  result is unchanged by any additional fuel once `max_evaluations ≤ fuel +
  num_evaluations`, so the fuel never influences the modelled behaviour
  (every pass that continues the loop strictly increases the evaluation
  count).
-/

/-- Model of `all_pairs` from `routesolver.py`. The Python function builds
`r1 = list(range(size))`, `r2 = list(range(size))`, shuffles each one in
place when a shuffle function is supplied, and yields `(i, j)` for `i` in
`r1` and `j` in `r2`. Here `r1` and `r2` are the two (possibly shuffled)
index lists after the shuffle step, passed in explicitly. -/
def all_pairs (r1 r2 : List Nat) : List (Nat × Nat) :=
  r1.flatMap fun i_index => r2.map fun j_index => (i_index, j_index)

/-- Model of one candidate of `reversed_sections` for an index pair
`(i_index, j_index)` with `i_index ≠ j_index`. For `i_index < j_index` the
Python code does `copy_tour[i:j+1] = reversed(tour[i:j+1])`. Otherwise it
does `copy_tour[i+1:] = reversed(tour[:j])` followed by
`copy_tour[:j] = reversed(tour[i+1:])`, where both slice assignments may
change the length of the intermediate list (the final length works out to
the original length again); the two assignments are translated one after
the other using the slice-assignment semantics described in the header. -/
def rev_candidate (tour : List Nat) (i_index j_index : Nat) : List Nat :=
  if i_index < j_index then
    tour.take i_index ++ ((tour.take (j_index + 1)).drop i_index).reverse
      ++ tour.drop (j_index + 1)
  else
    (tour.drop (i_index + 1)).reverse
      ++ (tour.take (i_index + 1) ++ (tour.take j_index).reverse).drop j_index

/-- Model of `reversed_sections` from `routesolver.py`: for each yielded pair
with `i_index ≠ j_index`, build the candidate and yield it unless it equals
the input tour. `pairs` is the pair sequence produced by
`all_pairs(len(tour))` for this call (its shuffle outcome made explicit). -/
def reversed_sections (tour : List Nat) (pairs : List (Nat × Nat)) :
    List (List Nat) :=
  pairs.filterMap fun p =>
    if p.1 ≠ p.2 then
      if rev_candidate tour p.1 p.2 ≠ tour then
        some (rev_candidate tour p.1 p.2)
      else none
    else none

/-- Model of one candidate of `shift_cities` for an index pair
`(i_index, j_index)`: the Python code builds
`tour[0:i] + tour[i+1:j] + [tour[i]] + tour[j:len(tour)]`. -/
def shiftCandidate (tour : List Nat) (i_index j_index : Nat) : List Nat :=
  tour.take i_index ++ (tour.take j_index).drop (i_index + 1)
    ++ [tour.getD i_index 0] ++ tour.drop j_index

/-- Model of `shift_cities` from `routesolver.py`: every pair with
`i_index ≠ j_index` yields its candidate (there is no skip condition). -/
def shift_cities (tour : List Nat) (pairs : List (Nat × Nat)) :
    List (List Nat) :=
  pairs.filterMap fun p =>
    if p.1 ≠ p.2 then some (shiftCandidate tour p.1 p.2) else none

/-- Model of `tour_length_cycle` from `routesolver.py`: sum, for each
`i_index < len(tour)`, the cost of the edge from `tour[i_index]` to
`tour[(i_index + 1) % len(tour)]`. In-range Python indexing `tour[i]` is
written `tour.getD i 0`. -/
def tour_length_cycle (matrix : Nat → Nat → Rat) (tour : List Nat) : Rat :=
  (List.range tour.length).foldl
    (fun total_cost i_index =>
      total_cost +
        matrix (tour.getD i_index 0)
          (tour.getD ((i_index + 1) % tour.length) 0))
    0

/-- Model of the inner `for candidate_tour in move_operator(best_tour)` loop
of `hillclimb`: walk the candidate list; stop with the current state once
the budget check `num_evaluations >= max_evaluations` fires; otherwise
evaluate the candidate, increment the count, and accept the first candidate
whose score strictly exceeds the current best (returning `true` for the
Python `move_made` flag). -/
def climb_pass (objective_function : List Nat → Rat) (max_evaluations : Nat) :
    List (List Nat) → Nat → Rat → List Nat → Nat × Rat × List Nat × Bool
  | [], num_evaluations, best_score, best_tour =>
      (num_evaluations, best_score, best_tour, false)
  | candidate_tour :: rest, num_evaluations, best_score, best_tour =>
      if max_evaluations ≤ num_evaluations then
        (num_evaluations, best_score, best_tour, false)
      else
        if best_score < objective_function candidate_tour then
          (num_evaluations + 1, objective_function candidate_tour,
            candidate_tour, true)
        else
          climb_pass objective_function max_evaluations rest
            (num_evaluations + 1) best_score best_tour

/-- Model of the `while num_evaluations < max_evaluations` loop of
`hillclimb`. The move operator receives the index of the current pass so
that every textual call of `move_operator(best_tour)` can carry its own
random enumeration order. `fuel` bounds the number of passes; see the file
header and `climb_loop_fuel_stable`. -/
def climb_loop (objective_function : List Nat → Rat)
    (move_operator : Nat → List Nat → List (List Nat))
    (max_evaluations : Nat) :
    Nat → Nat → Nat → Rat → List Nat → Nat × Rat × List Nat
  | 0, _, num_evaluations, best_score, best_tour =>
      (num_evaluations, best_score, best_tour)
  | fuel + 1, pass_index, num_evaluations, best_score, best_tour =>
      if num_evaluations < max_evaluations then
        let r := climb_pass objective_function max_evaluations
          (move_operator pass_index best_tour)
          num_evaluations best_score best_tour
        if r.2.2.2 then
          climb_loop objective_function move_operator max_evaluations fuel
            (pass_index + 1) r.1 r.2.1 r.2.2.1
        else
          (r.1, r.2.1, r.2.2.1)
      else
        (num_evaluations, best_score, best_tour)

/-- Model of `hillclimb` from `routesolver.py`: evaluate the initial tour
(evaluation number one), then run the pass loop. `init_tour` is the tour
returned by `init_function()`; the returned triple is
`(num_evaluations, best_score, best_tour)`. -/
def hillclimb (init_tour : List Nat)
    (move_operator : Nat → List Nat → List (List Nat))
    (objective_function : List Nat → Rat) (max_evaluations : Nat) :
    Nat × Rat × List Nat :=
  climb_loop objective_function move_operator max_evaluations
    max_evaluations 0 1 (objective_function init_tour) init_tour

/-- Model of the best-update of `hillclimb_and_restart`: Python keeps
`best_tour = None` and `best_score = -inf` until the first run, then
replaces the pair exactly when `best_tour is None or score > best_score`.
The `None` state is modelled as `none`; while the state is `none` the
score component is never consulted, so the `-inf` needs no model. -/
def restart_step (best : Option (Rat × List Nat)) (score : Rat)
    (tour : List Nat) : Option (Rat × List Nat) :=
  match best with
  | none => some (score, tour)
  | some (best_score, best_tour) =>
      if best_score < score then some (score, tour)
      else some (best_score, best_tour)

/-- Model of the `for iteration_index in range(max_iterations)` loop of
`hillclimb_and_restart`. `init_tours k` is the tour produced by the call of
`init_function()` in iteration `k`, and `move_operators k` carries the
random enumeration orders of iteration `k`. -/
def restart_loop (init_tours : Nat → List Nat)
    (move_operators : Nat → Nat → List Nat → List (List Nat))
    (objective_function : List Nat → Rat) (max_evaluations : Nat) :
    Nat → Nat → Nat → Option (Rat × List Nat) →
      Nat × Option (Rat × List Nat)
  | 0, _, total_evaluations, best => (total_evaluations, best)
  | remaining + 1, iteration_index, total_evaluations, best =>
      let r := hillclimb (init_tours iteration_index)
        (move_operators iteration_index) objective_function max_evaluations
      restart_loop init_tours move_operators objective_function
        max_evaluations remaining (iteration_index + 1)
        (total_evaluations + r.1) (restart_step best r.2.1 r.2.2)

/-- Model of `hillclimb_and_restart` from `routesolver.py`: run `hillclimb`
`max_iterations` times, summing the evaluation counts and keeping the best
`(score, tour)` pair under strict comparison. The result pairs the total
evaluation count with the final best state (`none` exactly when
`max_iterations = 0`, where Python would return `(-inf, None)`). -/
def hillclimb_and_restart (init_tours : Nat → List Nat)
    (move_operators : Nat → Nat → List Nat → List (List Nat))
    (objective_function : List Nat → Rat)
    (max_iterations max_evaluations : Nat) :
    Nat × Option (Rat × List Nat) :=
  restart_loop init_tours move_operators objective_function max_evaluations
    max_iterations 0 0 none

/-- Model of `normalize_home_first` from `routesolver.py`: with
`home_index = tour.index(home)`, return
`tour[home_index:] + tour[1:home_index + 1]`. (Python `tour.index` raises
when `home` is absent; all uses below have `home` present, where
`List.indexOf` agrees with it.) -/
def normalize_home_first (tour : List Nat) (home : Nat) : List Nat :=
  let home_index := tour.indexOf home
  tour.drop home_index ++ (tour.take (home_index + 1)).drop 1

/-- Model of `solve_tsp_hillclimb` from `routesolver.py`. The number of
cities is only used by the Python code to build the random initial tours
`list(range(num_cities))`, so it is folded into the explicit shuffle
outcomes `init_shuffles` (one per stage-one iteration). `stage1_orders it
pass size` and `stage2_orders it pass size` are the pair sequences produced
by `all_pairs(size)` for pass `pass` of iteration `it` of the respective
stage (`size` is the length of the tour the operator is applied to, exactly
as in `all_pairs(len(tour))`). The result is `none` exactly when
`max_iter = 0`, where the Python code would crash copying a `None` tour. -/
def solve_tsp_hillclimb (matrix : Nat → Nat → Rat) (max_iter max_eval : Nat)
    (init_shuffles : Nat → List Nat)
    (stage1_orders stage2_orders : Nat → Nat → Nat → List (Nat × Nat)) :
    Option (List Nat) :=
  let fitness : List Nat → Rat := fun tour => -(tour_length_cycle matrix tour)
  let stage1 := hillclimb_and_restart init_shuffles
    (fun it pass tour => reversed_sections tour (stage1_orders it pass tour.length))
    fitness max_iter max_eval
  match stage1.2 with
  | none => none
  | some (score_stage_one, best_tour) =>
    let stage2 := hillclimb_and_restart (fun _ => best_tour)
      (fun it pass tour => shift_cities tour (stage2_orders it pass tour.length))
      fitness 2 max_eval
    match stage2.2 with
    | none => none
    | some (score_stage_two, improved_tour) =>
      let final_tour_base :=
        if score_stage_one < score_stage_two then improved_tour else best_tour
      let final_tour := normalize_home_first final_tour_base 0
      if final_tour.getLastD 0 ≠ 0 then some (final_tour ++ [0])
      else some final_tour

/-- Modelled from the spec: `compute_reverse_cycle` is invoked as
`routesolver.compute_reverse_cycle(tour)` by `main.py`, but its definition
is absent from the provided sources. Spec section 4.7 describes it:
input a normalized closed path `[home, a, b, ..., z, home]`, output
`[home, z, ..., b, a, home]`, a pure structural reversal of the interior
elements. Reversing the whole closed path realizes exactly this, because
the first and last elements coincide. -/
def compute_reverse_cycle (path : List Nat) : List Nat :=
  path.reverse

/-- Sum of the edge costs along a path (no wraparound edge). Used to reason
about `tour_length_cycle`, which equals `pathCost` of the tour with its
first element appended at the end. -/
def pathCost (matrix : Nat → Nat → Rat) : List Nat → Rat
  | a :: b :: rest => matrix a b + pathCost matrix (b :: rest)
  | _ => 0

theorem foldl_add_map (g : Nat → Rat) (l : List Nat) : ∀ (a : Rat),
    l.foldl (fun acc i => acc + g i) a = a + (l.map g).sum := by
  induction l with
  | nil => intro a; simp
  | cons x xs ih => intro a; simp [ih, add_assoc]

theorem pathCost_eq_sum (matrix : Nat → Nat → Rat) : ∀ l : List Nat,
    pathCost matrix l =
      ((List.range (l.length - 1)).map
        (fun i => matrix (l.getD i 0) (l.getD (i + 1) 0))).sum
  | [] => by simp [pathCost]
  | [a] => by simp [pathCost]
  | a :: b :: rest => by
    rw [pathCost, pathCost_eq_sum matrix (b :: rest)]
    have hr : List.range ((a :: b :: rest).length - 1)
        = 0 :: (List.range ((b :: rest).length - 1)).map Nat.succ := by
      simp [List.range_succ_eq_map]
    rw [hr]
    simp [Function.comp]
    refine congrArg List.sum (List.map_congr_left ?_)
    intro i _
    simp [Function.comp]

theorem tour_length_cycle_eq_pathCost (matrix : Nat → Nat → Rat)
    (tour : List Nat) :
    tour_length_cycle matrix tour
      = pathCost matrix (tour ++ [tour.getD 0 0]) := by
  rw [tour_length_cycle, foldl_add_map, pathCost_eq_sum, zero_add]
  have hlen : (tour ++ [tour.getD 0 0]).length - 1 = tour.length := by simp
  rw [hlen]
  refine congrArg List.sum (List.map_congr_left ?_)
  intro i hi
  rw [List.mem_range] at hi
  rw [List.getD_append tour [tour.getD 0 0] 0 i hi]
  rcases Nat.lt_or_ge (i + 1) tour.length with h2 | h2
  · rw [Nat.mod_eq_of_lt h2, List.getD_append tour [tour.getD 0 0] 0 (i + 1) h2]
  · have h3 : i + 1 = tour.length := by omega
    rw [h3, Nat.mod_self,
      List.getD_append_right tour [tour.getD 0 0] 0 tour.length (le_refl _),
      Nat.sub_self]
    simp

theorem pathCost_append_cons (matrix : Nat → Nat → Rat) :
    ∀ (xs : List Nat) (b : Nat) (ys : List Nat),
    pathCost matrix (xs ++ b :: ys)
      = pathCost matrix (xs ++ [b]) + pathCost matrix (b :: ys)
  | [], b, ys => by simp [pathCost]
  | [a], b, ys => by simp [pathCost]
  | a :: a2 :: xs, b, ys => by
    have ih := pathCost_append_cons matrix (a2 :: xs) b ys
    have h1 : pathCost matrix ((a :: a2 :: xs) ++ b :: ys)
        = matrix a a2 + pathCost matrix ((a2 :: xs) ++ b :: ys) := rfl
    have h2 : pathCost matrix ((a :: a2 :: xs) ++ [b])
        = matrix a a2 + pathCost matrix ((a2 :: xs) ++ [b]) := rfl
    rw [h1, h2, ih]
    ring

theorem tour_length_cycle_cons_rotate (matrix : Nat → Nat → Rat) (a : Nat)
    (l : List Nat) :
    tour_length_cycle matrix (a :: l) = tour_length_cycle matrix (l ++ [a]) := by
  cases l with
  | nil => rfl
  | cons b l2 =>
    rw [tour_length_cycle_eq_pathCost, tour_length_cycle_eq_pathCost]
    have e1 : ((a :: b :: l2) ++ [(a :: b :: l2).getD 0 0])
        = [a] ++ b :: (l2 ++ [a]) := by simp
    have e2 : (((b :: l2) ++ [a]) ++ [((b :: l2) ++ [a]).getD 0 0])
        = (b :: l2) ++ a :: [b] := by simp
    rw [e1, e2, pathCost_append_cons matrix [a] b (l2 ++ [a]),
      pathCost_append_cons matrix (b :: l2) a [b]]
    have e3 : pathCost matrix ([a] ++ [b]) = pathCost matrix [a, b] := rfl
    have e4 : (b :: l2) ++ [a] = b :: (l2 ++ [a]) := by simp
    rw [e3, e4]
    ring

/-- C8: for every cost matrix and every non-empty tour, `tour_length_cycle`
is invariant under rotation of the tour: rotating the starting point of the
cyclic sequence does not change the total cost returned. (The statement
needs no non-emptiness hypothesis: it also holds trivially for the empty
tour.) -/
theorem C8_tour_length_cycle_rotate (matrix : Nat → Nat → Rat)
    (tour : List Nat) (k : Nat) :
    tour_length_cycle matrix (tour.rotate k) = tour_length_cycle matrix tour := by
  induction k generalizing tour with
  | zero => rw [List.rotate_zero]
  | succ k ih =>
    cases tour with
    | nil => rw [List.rotate_nil]
    | cons a l =>
      rw [List.rotate_cons_succ, ih (l ++ [a]), tour_length_cycle_cons_rotate]

theorem rev_candidate_perm (tour : List Nat) (i_index j_index : Nat)
    (hj : j_index < tour.length) (hne : i_index ≠ j_index) :
    (rev_candidate tour i_index j_index).Perm tour := by
  rw [rev_candidate]
  by_cases hij : i_index < j_index
  · rw [if_pos hij]
    have h1 : tour.take i_index = (tour.take (j_index + 1)).take i_index := by
      rw [List.take_take]
      congr 1
      omega
    have p1 : (tour.take i_index ++ ((tour.take (j_index + 1)).drop i_index).reverse
        ++ tour.drop (j_index + 1)).Perm
        (tour.take i_index ++ (tour.take (j_index + 1)).drop i_index
          ++ tour.drop (j_index + 1)) :=
      List.Perm.append_right _ (List.Perm.append_left _ (List.reverse_perm _))
    have p2 : tour.take i_index ++ (tour.take (j_index + 1)).drop i_index
        ++ tour.drop (j_index + 1) = tour := by
      rw [h1, List.take_append_drop, List.take_append_drop]
    exact p1.trans (by rw [p2])
  · rw [if_neg hij]
    have hji : j_index < i_index := by omega
    have hlen : j_index ≤ (tour.take (i_index + 1)).length := by
      rw [List.length_take]
      omega
    rw [List.drop_append_eq_append_drop, Nat.sub_eq_zero_of_le hlen,
      List.drop_zero]
    have q1 : ((tour.drop (i_index + 1)).reverse
        ++ ((tour.take (i_index + 1)).drop j_index ++ (tour.take j_index).reverse)).Perm
        (tour.drop (i_index + 1)
          ++ ((tour.take (i_index + 1)).drop j_index ++ tour.take j_index)) :=
      List.Perm.append (List.reverse_perm _)
        (List.Perm.append_left _ (List.reverse_perm _))
    have q2 : (tour.drop (i_index + 1)
        ++ ((tour.take (i_index + 1)).drop j_index ++ tour.take j_index)).Perm
        (((tour.take (i_index + 1)).drop j_index ++ tour.take j_index)
          ++ tour.drop (i_index + 1)) := List.perm_append_comm
    have q3 : (((tour.take (i_index + 1)).drop j_index ++ tour.take j_index)
        ++ tour.drop (i_index + 1)).Perm
        ((tour.take j_index ++ (tour.take (i_index + 1)).drop j_index)
          ++ tour.drop (i_index + 1)) :=
      List.Perm.append_right _ List.perm_append_comm
    have q4 : (tour.take j_index ++ (tour.take (i_index + 1)).drop j_index)
        ++ tour.drop (i_index + 1) = tour := by
      have h2 : tour.take j_index = (tour.take (i_index + 1)).take j_index := by
        rw [List.take_take]
        congr 1
        omega
      rw [h2, List.take_append_drop, List.take_append_drop]
    exact ((q1.trans q2).trans q3).trans (by rw [q4])

/-- C3: for every base tour that is a permutation of `0..n-1`, every
candidate yielded by `reversed_sections` (including candidates from the
cyclic-wraparound branch where `i > j`) is a permutation of `0..n-1` of the
same length `n`, and is never identical to the input tour. (The base tour
is a value here, so it cannot be mutated; the pairs hypothesis records that
`all_pairs(len(tour))` only yields indices below `n`.) -/
theorem C3_reversed_sections_candidates (n : Nat) (tour : List Nat)
    (pairs : List (Nat × Nat)) (htour : tour.Perm (List.range n))
    (hpairs : ∀ p ∈ pairs, p.1 < n ∧ p.2 < n) (c : List Nat)
    (hc : c ∈ reversed_sections tour pairs) :
    c.Perm (List.range n) ∧ c ≠ tour ∧ c.length = n := by
  rw [reversed_sections, List.mem_filterMap] at hc
  obtain ⟨p, hp, heq⟩ := hc
  by_cases h1 : p.1 ≠ p.2
  · rw [if_pos h1] at heq
    by_cases h2 : rev_candidate tour p.1 p.2 ≠ tour
    · rw [if_pos h2] at heq
      obtain rfl : rev_candidate tour p.1 p.2 = c := Option.some.inj heq
      have hlen : tour.length = n := by
        rw [htour.length_eq, List.length_range]
      have hperm : (rev_candidate tour p.1 p.2).Perm tour :=
        rev_candidate_perm tour p.1 p.2 (by rw [hlen]; exact (hpairs p hp).2) h1
      refine ⟨hperm.trans htour, h2, ?_⟩
      rw [hperm.length_eq, hlen]
    · rw [if_neg h2] at heq
      simp at heq
  · rw [if_neg h1] at heq
    simp at heq

theorem C3_reversed_sections_candidates_witness :
    ([2, 1, 0] : List Nat).Perm (List.range 3) ∧ ([2, 1, 0] : List Nat) ≠ [0, 1, 2]
      ∧ ([2, 1, 0] : List Nat).length = 3 :=
  C3_reversed_sections_candidates 3 [0, 1, 2] [(0, 2)] (by decide) (by decide)
    [2, 1, 0] (by decide)

theorem climb_pass_evals (objective_function : List Nat → Rat)
    (max_evaluations : Nat) :
    ∀ (cs : List (List Nat)) (ne : Nat) (bs : Rat) (bt : List Nat),
    ne ≤ max_evaluations →
      ne ≤ (climb_pass objective_function max_evaluations cs ne bs bt).1 ∧
      (climb_pass objective_function max_evaluations cs ne bs bt).1
        ≤ max_evaluations := by
  intro cs
  induction cs with
  | nil => intro ne bs bt h; exact ⟨le_refl _, h⟩
  | cons c rest ih =>
    intro ne bs bt h
    rw [climb_pass]
    by_cases hg : max_evaluations ≤ ne
    · rw [if_pos hg]
      exact ⟨le_refl _, h⟩
    · rw [if_neg hg]
      by_cases hacc : bs < objective_function c
      · rw [if_pos hacc]
        exact ⟨Nat.le_succ _, by omega⟩
      · rw [if_neg hacc]
        have h2 := ih (ne + 1) bs bt (by omega)
        exact ⟨le_trans (Nat.le_succ _) h2.1, h2.2⟩

theorem climb_pass_moved_lt (objective_function : List Nat → Rat)
    (max_evaluations : Nat) :
    ∀ (cs : List (List Nat)) (ne : Nat) (bs : Rat) (bt : List Nat),
    (climb_pass objective_function max_evaluations cs ne bs bt).2.2.2 = true →
      ne < (climb_pass objective_function max_evaluations cs ne bs bt).1 := by
  intro cs
  induction cs with
  | nil => intro ne bs bt h; exact absurd h (by simp [climb_pass])
  | cons c rest ih =>
    intro ne bs bt h
    rw [climb_pass] at h ⊢
    by_cases hg : max_evaluations ≤ ne
    · rw [if_pos hg] at h
      exact absurd h (by simp)
    · rw [if_neg hg] at h ⊢
      by_cases hacc : bs < objective_function c
      · rw [if_pos hacc]
        exact Nat.lt_succ_self _
      · rw [if_neg hacc] at h ⊢
        exact lt_of_le_of_lt (Nat.le_succ _) (ih (ne + 1) bs bt h)

theorem climb_pass_score_mono (objective_function : List Nat → Rat)
    (max_evaluations : Nat) :
    ∀ (cs : List (List Nat)) (ne : Nat) (bs : Rat) (bt : List Nat),
    bs ≤ (climb_pass objective_function max_evaluations cs ne bs bt).2.1 := by
  intro cs
  induction cs with
  | nil => intro ne bs bt; exact le_refl _
  | cons c rest ih =>
    intro ne bs bt
    rw [climb_pass]
    by_cases hg : max_evaluations ≤ ne
    · rw [if_pos hg]
    · rw [if_neg hg]
      by_cases hacc : bs < objective_function c
      · rw [if_pos hacc]
        exact le_of_lt hacc
      · rw [if_neg hacc]
        exact ih (ne + 1) bs bt

theorem climb_loop_evals (objective_function : List Nat → Rat)
    (move_operator : Nat → List Nat → List (List Nat))
    (max_evaluations : Nat) :
    ∀ (fuel pass_index ne : Nat) (bs : Rat) (bt : List Nat),
    ne ≤ max_evaluations →
      ne ≤ (climb_loop objective_function move_operator max_evaluations
        fuel pass_index ne bs bt).1 ∧
      (climb_loop objective_function move_operator max_evaluations
        fuel pass_index ne bs bt).1 ≤ max_evaluations := by
  intro fuel
  induction fuel with
  | zero => intro pass_index ne bs bt h; exact ⟨le_refl _, h⟩
  | succ fuel ih =>
    intro pass_index ne bs bt h
    rw [climb_loop]
    by_cases hg : ne < max_evaluations
    · rw [if_pos hg]
      have hp := climb_pass_evals objective_function max_evaluations
        (move_operator pass_index bt) ne bs bt h
      by_cases hm : (climb_pass objective_function max_evaluations
          (move_operator pass_index bt) ne bs bt).2.2.2 = true
      · simp only [hm, if_true]
        have h2 := ih (pass_index + 1)
          (climb_pass objective_function max_evaluations
            (move_operator pass_index bt) ne bs bt).1
          (climb_pass objective_function max_evaluations
            (move_operator pass_index bt) ne bs bt).2.1
          (climb_pass objective_function max_evaluations
            (move_operator pass_index bt) ne bs bt).2.2.1 hp.2
        exact ⟨le_trans hp.1 h2.1, h2.2⟩
      · simp only [hm, if_false]
        exact hp
    · rw [if_neg hg]
      exact ⟨le_refl _, h⟩

theorem climb_loop_score_mono (objective_function : List Nat → Rat)
    (move_operator : Nat → List Nat → List (List Nat))
    (max_evaluations : Nat) :
    ∀ (fuel pass_index ne : Nat) (bs : Rat) (bt : List Nat),
    bs ≤ (climb_loop objective_function move_operator max_evaluations
      fuel pass_index ne bs bt).2.1 := by
  intro fuel
  induction fuel with
  | zero => intro pass_index ne bs bt; exact le_refl _
  | succ fuel ih =>
    intro pass_index ne bs bt
    rw [climb_loop]
    by_cases hg : ne < max_evaluations
    · rw [if_pos hg]
      have hp := climb_pass_score_mono objective_function max_evaluations
        (move_operator pass_index bt) ne bs bt
      by_cases hm : (climb_pass objective_function max_evaluations
          (move_operator pass_index bt) ne bs bt).2.2.2 = true
      · simp only [hm, if_true]
        exact le_trans hp (ih (pass_index + 1) _ _ _)
      · simp only [hm, if_false]
        exact hp
    · rw [if_neg hg]

theorem climb_loop_fuel_stable (objective_function : List Nat → Rat)
    (move_operator : Nat → List Nat → List (List Nat))
    (max_evaluations : Nat) :
    ∀ (fuel pass_index ne : Nat) (bs : Rat) (bt : List Nat),
    max_evaluations ≤ fuel + ne →
      climb_loop objective_function move_operator max_evaluations
        (fuel + 1) pass_index ne bs bt
      = climb_loop objective_function move_operator max_evaluations
        fuel pass_index ne bs bt := by
  intro fuel
  induction fuel with
  | zero =>
    intro pass_index ne bs bt h
    rw [climb_loop, climb_loop]
    rw [if_neg (by omega)]
  | succ fuel ih =>
    intro pass_index ne bs bt h
    rw [climb_loop]
    conv_rhs => rw [climb_loop]
    by_cases hg : ne < max_evaluations
    · rw [if_pos hg, if_pos hg]
      by_cases hm : (climb_pass objective_function max_evaluations
          (move_operator pass_index bt) ne bs bt).2.2.2 = true
      · simp only [hm, if_true]
        have hlt := climb_pass_moved_lt objective_function max_evaluations
          (move_operator pass_index bt) ne bs bt hm
        exact ih (pass_index + 1) _ _ _ (by omega)
      · simp only [hm, Bool.false_eq_true, if_false]
    · rw [if_neg hg, if_neg hg]

theorem climb_pass_no_improve (objective_function : List Nat → Rat)
    (max_evaluations : Nat) :
    ∀ (cs : List (List Nat)) (ne : Nat) (bs : Rat) (bt : List Nat),
    (∀ c ∈ cs, objective_function c ≤ bs) →
    ne + cs.length ≤ max_evaluations →
      climb_pass objective_function max_evaluations cs ne bs bt
        = (ne + cs.length, bs, bt, false) := by
  intro cs
  induction cs with
  | nil => intro ne bs bt _ _; simp [climb_pass]
  | cons c rest ih =>
    intro ne bs bt hall hbud
    rw [climb_pass]
    rw [if_neg (by simp at hbud ⊢; omega)]
    rw [if_neg (not_lt.mpr (hall c (by simp)))]
    have h2 := ih (ne + 1) bs bt (fun x hx => hall x (by simp [hx]))
      (by simp at hbud ⊢; omega)
    rw [h2]
    have h3 : ne + 1 + rest.length = ne + (c :: rest).length := by
      simp
      omega
    rw [h3]

theorem climb_pass_first_improve (objective_function : List Nat → Rat)
    (max_evaluations : Nat) :
    ∀ (cs1 : List (List Nat)) (c : List Nat) (cs2 : List (List Nat))
      (ne : Nat) (bs : Rat) (bt : List Nat),
    (∀ x ∈ cs1, objective_function x ≤ bs) →
    bs < objective_function c →
    ne + cs1.length + 1 ≤ max_evaluations →
      climb_pass objective_function max_evaluations (cs1 ++ c :: cs2) ne bs bt
        = (ne + cs1.length + 1, objective_function c, c, true) := by
  intro cs1
  induction cs1 with
  | nil =>
    intro c cs2 ne bs bt _ himp hbud
    rw [List.nil_append, climb_pass]
    rw [if_neg (by simp at hbud; omega)]
    rw [if_pos himp]
    simp
  | cons a cs1 ih =>
    intro c cs2 ne bs bt hall himp hbud
    rw [List.cons_append, climb_pass]
    rw [if_neg (by simp at hbud; omega)]
    rw [if_neg (not_lt.mpr (hall a (by simp)))]
    have h2 := ih c cs2 (ne + 1) bs bt (fun x hx => hall x (by simp [hx]))
      himp (by simp at hbud ⊢; omega)
    rw [h2]
    have h3 : ne + 1 + cs1.length + 1 = ne + (a :: cs1).length + 1 := by
      simp
      omega
    rw [h3]

/-- C4: for every initializer, move operator, objective function, and budget
`E >= 1`, `hillclimb` terminates (it is a total function of an explicitly
bounded loop) and the number of evaluations it reports is at least 1 and at
most `E`; the budget is never overshot even when the limit is reached
mid-enumeration of candidates (the count is checked before every single
candidate evaluation). -/
theorem C4_hillclimb_budget (init_tour : List Nat)
    (move_operator : Nat → List Nat → List (List Nat))
    (objective_function : List Nat → Rat) (max_evaluations : Nat)
    (h : 1 ≤ max_evaluations) :
    1 ≤ (hillclimb init_tour move_operator objective_function
      max_evaluations).1 ∧
    (hillclimb init_tour move_operator objective_function
      max_evaluations).1 ≤ max_evaluations :=
  climb_loop_evals objective_function move_operator max_evaluations
    max_evaluations 0 1 (objective_function init_tour) init_tour h

theorem C4_hillclimb_budget_witness :
    1 ≤ (hillclimb [0, 1] (fun _ _ => []) (fun _ => 0) 3).1 ∧
    (hillclimb [0, 1] (fun _ _ => []) (fun _ => 0) 3).1 ≤ 3 :=
  C4_hillclimb_budget [0, 1] (fun _ _ => []) (fun _ => 0) 3 (by decide)

/-- C5: within a single `hillclimb` run the current best fitness never
decreases. Conjunct one: the returned best fitness is at least the fitness
of the initial tour (the loop only ever replaces the best score by a
strictly larger one, see `climb_loop_score_mono`). Conjunct two: the first
candidate whose fitness strictly exceeds the current best is accepted and
the pass abandoned — the pass result is determined before the remaining
candidates `cs2` are ever looked at. Conjunct three: a full pass with no
strictly improving candidate terminates the run, returning the current
best, even when budget remains. -/
theorem C5_hillclimb_first_improvement :
    (∀ (init_tour : List Nat)
        (move_operator : Nat → List Nat → List (List Nat))
        (objective_function : List Nat → Rat) (max_evaluations : Nat),
      objective_function init_tour
        ≤ (hillclimb init_tour move_operator objective_function
            max_evaluations).2.1)
    ∧
    (∀ (objective_function : List Nat → Rat) (max_evaluations : Nat)
        (cs1 : List (List Nat)) (c : List Nat) (cs2 : List (List Nat))
        (ne : Nat) (bs : Rat) (bt : List Nat),
      (∀ x ∈ cs1, objective_function x ≤ bs) →
      bs < objective_function c →
      ne + cs1.length + 1 ≤ max_evaluations →
        climb_pass objective_function max_evaluations (cs1 ++ c :: cs2)
          ne bs bt
          = (ne + cs1.length + 1, objective_function c, c, true))
    ∧
    (∀ (objective_function : List Nat → Rat)
        (move_operator : Nat → List Nat → List (List Nat))
        (max_evaluations fuel pass_index ne : Nat) (bs : Rat) (bt : List Nat),
      ne < max_evaluations →
      (∀ c ∈ move_operator pass_index bt, objective_function c ≤ bs) →
      ne + (move_operator pass_index bt).length ≤ max_evaluations →
        climb_loop objective_function move_operator max_evaluations (fuel + 1)
          pass_index ne bs bt
          = (ne + (move_operator pass_index bt).length, bs, bt)) := by
  refine ⟨?_, ?_, ?_⟩
  · intro init_tour move_operator objective_function max_evaluations
    exact climb_loop_score_mono objective_function move_operator
      max_evaluations max_evaluations 0 1 (objective_function init_tour)
      init_tour
  · intro objective_function max_evaluations cs1 c cs2 ne bs bt hall himp hbud
    exact climb_pass_first_improve objective_function max_evaluations
      cs1 c cs2 ne bs bt hall himp hbud
  · intro objective_function move_operator max_evaluations fuel pass_index
      ne bs bt hg hall hbud
    rw [climb_loop, if_pos hg,
      climb_pass_no_improve objective_function max_evaluations
        (move_operator pass_index bt) ne bs bt hall hbud]
    simp

theorem C5_hillclimb_first_improvement_witness :
    ((fun _ : List Nat => (0 : Rat)) [0]
      ≤ (hillclimb [0] (fun _ _ => []) (fun _ : List Nat => (0 : Rat)) 1).2.1)
    ∧ climb_pass (fun t : List Nat => if t.length = 0 then (0 : Rat) else 1)
        2 ([] ++ [7] :: []) 1 0 [0]
      = (1 + List.length ([] : List (List Nat)) + 1,
          (fun t : List Nat => if t.length = 0 then (0 : Rat) else 1) [7],
          [7], true)
    ∧ climb_loop (fun _ : List Nat => (0 : Rat)) (fun _ _ => []) 2 (0 + 1)
        5 1 0 [0]
      = (1 + ((fun (_ : Nat) (_ : List Nat) => ([] : List (List Nat))) 5 [0]).length,
          0, [0]) :=
  ⟨C5_hillclimb_first_improvement.1 [0] (fun _ _ => [])
      (fun _ : List Nat => (0 : Rat)) 1,
    C5_hillclimb_first_improvement.2.1
      (fun t : List Nat => if t.length = 0 then (0 : Rat) else 1)
      2 [] [7] [] 1 0 [0] (by simp) (by simp) (by simp),
    C5_hillclimb_first_improvement.2.2 (fun _ : List Nat => (0 : Rat))
      (fun _ _ => []) 2 0 5 1 0 [0] (by decide) (by simp) (by simp)⟩

theorem restart_loop_fst (init_tours : Nat → List Nat)
    (move_operators : Nat → Nat → List Nat → List (List Nat))
    (objective_function : List Nat → Rat) (max_evaluations : Nat) :
    ∀ (remaining iteration_index total_evaluations : Nat)
      (best : Option (Rat × List Nat)),
    (restart_loop init_tours move_operators objective_function
      max_evaluations remaining iteration_index total_evaluations best).1
      = total_evaluations
        + ((List.range' iteration_index remaining).map
            (fun k => (hillclimb (init_tours k) (move_operators k)
              objective_function max_evaluations).1)).sum := by
  intro remaining
  induction remaining with
  | zero => intro it tot best; simp [restart_loop]
  | succ remaining ih =>
    intro it tot best
    rw [restart_loop, ih (it + 1), List.range'_succ]
    simp
    omega

theorem restart_loop_snd (init_tours : Nat → List Nat)
    (move_operators : Nat → Nat → List Nat → List (List Nat))
    (objective_function : List Nat → Rat) (max_evaluations : Nat) :
    ∀ (remaining iteration_index total_evaluations : Nat)
      (best : Option (Rat × List Nat)),
    (restart_loop init_tours move_operators objective_function
      max_evaluations remaining iteration_index total_evaluations best).2
      = (List.range' iteration_index remaining).foldl
          (fun b k => restart_step b
            (hillclimb (init_tours k) (move_operators k)
              objective_function max_evaluations).2.1
            (hillclimb (init_tours k) (move_operators k)
              objective_function max_evaluations).2.2)
          best := by
  intro remaining
  induction remaining with
  | zero => intro it tot best; simp [restart_loop]
  | succ remaining ih =>
    intro it tot best
    rw [restart_loop, ih (it + 1), List.range'_succ]
    simp

theorem restart_foldl_some (f : Nat → Rat × List Nat) :
    ∀ (l : List Nat) (bs : Rat) (bt : List Nat),
    ∃ s t,
      l.foldl (fun b k => restart_step b (f k).1 (f k).2) (some (bs, bt))
        = some (s, t)
      ∧ bs ≤ s ∧ (∀ k ∈ l, (f k).1 ≤ s)
      ∧ ((s = bs ∧ t = bt)
          ∨ ∃ l1 k0 l2, l = l1 ++ k0 :: l2 ∧ (f k0).1 = s ∧ (f k0).2 = t
              ∧ bs < s ∧ ∀ k ∈ l1, (f k).1 < s) := by
  intro l
  induction l with
  | nil =>
    intro bs bt
    exact ⟨bs, bt, rfl, le_refl _, by simp, Or.inl ⟨rfl, rfl⟩⟩
  | cons a l ih =>
    intro bs bt
    rw [List.foldl_cons]
    by_cases ha : bs < (f a).1
    · rw [show restart_step (some (bs, bt)) (f a).1 (f a).2
          = some ((f a).1, (f a).2) from by simp [restart_step, ha]]
      obtain ⟨s, t, heq, hle, hall, hwin⟩ := ih (f a).1 (f a).2
      refine ⟨s, t, heq, le_trans (le_of_lt ha) hle, ?_, ?_⟩
      · intro k hk
        rcases List.mem_cons.mp hk with rfl | hk
        · exact hle
        · exact hall k hk
      · rcases hwin with ⟨hs, ht⟩ | ⟨l1, k0, l2, hdec, hs, ht, hlt, hpre⟩
        · exact Or.inr ⟨[], a, l, by simp, hs.symm ▸ rfl, ht.symm ▸ rfl,
            hs ▸ ha, by simp⟩
        · refine Or.inr ⟨a :: l1, k0, l2, by rw [hdec]; rfl, hs, ht,
            lt_trans ha hlt, ?_⟩
          intro k hk
          rcases List.mem_cons.mp hk with rfl | hk
          · exact hlt
          · exact hpre k hk
    · rw [show restart_step (some (bs, bt)) (f a).1 (f a).2
          = some (bs, bt) from by simp [restart_step, ha]]
      obtain ⟨s, t, heq, hle, hall, hwin⟩ := ih bs bt
      refine ⟨s, t, heq, hle, ?_, ?_⟩
      · intro k hk
        rcases List.mem_cons.mp hk with rfl | hk
        · exact le_trans (not_lt.mp ha) hle
        · exact hall k hk
      · rcases hwin with ⟨hs, ht⟩ | ⟨l1, k0, l2, hdec, hs, ht, hlt, hpre⟩
        · exact Or.inl ⟨hs, ht⟩
        · refine Or.inr ⟨a :: l1, k0, l2, by rw [hdec]; rfl, hs, ht, hlt, ?_⟩
          intro k hk
          rcases List.mem_cons.mp hk with rfl | hk
          · exact lt_of_le_of_lt (not_lt.mp ha) hlt
          · exact hpre k hk

theorem range'_decomp : ∀ (l1 : List Nat) (s n k0 : Nat) (l2 : List Nat),
    List.range' s n = l1 ++ k0 :: l2 →
    k0 = s + l1.length ∧ (∀ k ∈ l1, s ≤ k ∧ k < k0) ∧ (∀ k ∈ l2, k0 < k) := by
  intro l1
  induction l1 with
  | nil =>
    intro s n k0 l2 h
    cases n with
    | zero => simp at h
    | succ n =>
      rw [List.range'_succ, List.nil_append] at h
      obtain ⟨rfl, h2⟩ := List.cons.inj h
      refine ⟨by simp, by simp, ?_⟩
      intro k hk
      rw [← h2] at hk
      have := (List.mem_range'_1.mp hk).1
      omega
  | cons a l1 ih =>
    intro s n k0 l2 h
    cases n with
    | zero => simp at h
    | succ n =>
      rw [List.range'_succ, List.cons_append] at h
      obtain ⟨rfl, h2⟩ := List.cons.inj h
      obtain ⟨hk0, hmem, hl2⟩ := ih (s + 1) n k0 l2 h2
      refine ⟨by simp [hk0]; omega, ?_, hl2⟩
      intro k hk
      rcases List.mem_cons.mp hk with rfl | hk
      · exact ⟨le_refl _, by omega⟩
      · obtain ⟨h3, h4⟩ := hmem k hk
        exact ⟨by omega, h4⟩

/-- C6: for every `max_iterations >= 1`, `hillclimb_and_restart` returns a
best state `some (s, t)` where the total evaluation count is the sum of
the counts of all individual runs, `s` is at least the fitness returned by every
individual run, and `t` is the tour of the first run that attained fitness
`s` (all strictly earlier runs returned strictly smaller fitness, so later
equal-fitness runs never replace the first winner, matching the strict `>`
comparison in the code). -/
theorem C6_hillclimb_and_restart_best (init_tours : Nat → List Nat)
    (move_operators : Nat → Nat → List Nat → List (List Nat))
    (objective_function : List Nat → Rat)
    (max_iterations max_evaluations : Nat) (h : 1 ≤ max_iterations) :
    ∃ s t,
      (hillclimb_and_restart init_tours move_operators objective_function
        max_iterations max_evaluations).2 = some (s, t)
      ∧ (hillclimb_and_restart init_tours move_operators objective_function
          max_iterations max_evaluations).1
        = ((List.range max_iterations).map
            (fun k => (hillclimb (init_tours k) (move_operators k)
              objective_function max_evaluations).1)).sum
      ∧ (∀ it, it < max_iterations →
          (hillclimb (init_tours it) (move_operators it) objective_function
            max_evaluations).2.1 ≤ s)
      ∧ ∃ it0, it0 < max_iterations
          ∧ (hillclimb (init_tours it0) (move_operators it0)
              objective_function max_evaluations).2.1 = s
          ∧ (hillclimb (init_tours it0) (move_operators it0)
              objective_function max_evaluations).2.2 = t
          ∧ ∀ it, it < it0 →
              (hillclimb (init_tours it) (move_operators it)
                objective_function max_evaluations).2.1 < s := by
  obtain ⟨m, rfl⟩ : ∃ m, max_iterations = m + 1 :=
    ⟨max_iterations - 1, by omega⟩
  have hsum : (hillclimb_and_restart init_tours move_operators
      objective_function (m + 1) max_evaluations).1
      = ((List.range (m + 1)).map
          (fun k => (hillclimb (init_tours k) (move_operators k)
            objective_function max_evaluations).1)).sum := by
    rw [hillclimb_and_restart, restart_loop_fst, List.range_eq_range',
      Nat.zero_add]
  have hsnd : (hillclimb_and_restart init_tours move_operators
      objective_function (m + 1) max_evaluations).2
      = (List.range' 1 m).foldl
          (fun b k => restart_step b
            ((fun j => (hillclimb (init_tours j) (move_operators j)
              objective_function max_evaluations).2) k).1
            ((fun j => (hillclimb (init_tours j) (move_operators j)
              objective_function max_evaluations).2) k).2)
          (some ((hillclimb (init_tours 0) (move_operators 0)
              objective_function max_evaluations).2.1,
            (hillclimb (init_tours 0) (move_operators 0)
              objective_function max_evaluations).2.2)) := by
    rw [hillclimb_and_restart, restart_loop_snd, List.range'_succ,
      List.foldl_cons]
    rfl
  obtain ⟨s, t, heq, hle, hall, hwin⟩ := restart_foldl_some
    (fun j => (hillclimb (init_tours j) (move_operators j)
      objective_function max_evaluations).2)
    (List.range' 1 m)
    (hillclimb (init_tours 0) (move_operators 0) objective_function
      max_evaluations).2.1
    (hillclimb (init_tours 0) (move_operators 0) objective_function
      max_evaluations).2.2
  refine ⟨s, t, by rw [hsnd]; exact heq, hsum, ?_, ?_⟩
  · intro it hit
    cases Nat.eq_zero_or_pos it with
    | inl h0 => subst h0; exact hle
    | inr hpos =>
      exact hall it (List.mem_range'_1.mpr ⟨hpos, by omega⟩)
  · rcases hwin with ⟨hs, ht⟩ | ⟨l1, k0, l2, hdec, hs, ht, hlt, hpre⟩
    · exact ⟨0, by omega, hs.symm, ht.symm, by omega⟩
    · obtain ⟨hk0, hl1, hl2⟩ := range'_decomp l1 1 m k0 l2 hdec
      have hlen : m = l1.length + (l2.length + 1) := by
        have := congrArg List.length hdec
        simpa using this
      refine ⟨k0, by omega, hs, ht, ?_⟩
      intro it hit
      cases Nat.eq_zero_or_pos it with
      | inl h0 => subst h0; exact hlt
      | inr hpos =>
        refine hpre it ?_
        have hmem : it ∈ List.range' 1 m :=
          List.mem_range'_1.mpr ⟨hpos, by omega⟩
        rw [hdec] at hmem
        rcases List.mem_append.mp hmem with hh | hh
        · exact hh
        · rcases List.mem_cons.mp hh with rfl | hh
          · omega
          · exact absurd (hl2 it hh) (by omega)

theorem C6_hillclimb_and_restart_best_witness :
    ∃ s t,
      (hillclimb_and_restart (fun _ => [0]) (fun _ _ _ => [])
        (fun _ : List Nat => (0 : Rat)) 1 1).2 = some (s, t)
      ∧ (hillclimb_and_restart (fun _ => [0]) (fun _ _ _ => [])
          (fun _ : List Nat => (0 : Rat)) 1 1).1
        = ((List.range 1).map
            (fun k => (hillclimb ((fun _ : Nat => ([0] : List Nat)) k)
              ((fun _ _ _ => []) k) (fun _ : List Nat => (0 : Rat)) 1).1)).sum
      ∧ (∀ it, it < 1 →
          (hillclimb ((fun _ : Nat => ([0] : List Nat)) it)
            ((fun _ _ _ => []) it) (fun _ : List Nat => (0 : Rat)) 1).2.1 ≤ s)
      ∧ ∃ it0, it0 < 1
          ∧ (hillclimb ((fun _ : Nat => ([0] : List Nat)) it0)
              ((fun _ _ _ => []) it0) (fun _ : List Nat => (0 : Rat)) 1).2.1 = s
          ∧ (hillclimb ((fun _ : Nat => ([0] : List Nat)) it0)
              ((fun _ _ _ => []) it0) (fun _ : List Nat => (0 : Rat)) 1).2.2 = t
          ∧ ∀ it, it < it0 →
              (hillclimb ((fun _ : Nat => ([0] : List Nat)) it)
                ((fun _ _ _ => []) it) (fun _ : List Nat => (0 : Rat)) 1).2.1 < s :=
  C6_hillclimb_and_restart_best (fun _ => [0]) (fun _ _ _ => [])
    (fun _ : List Nat => (0 : Rat)) 1 1 (by decide)

theorem all_pairs_length : ∀ (r1 r2 : List Nat),
    (all_pairs r1 r2).length = r1.length * r2.length := by
  intro r1 r2
  induction r1 with
  | nil => simp [all_pairs]
  | cons a r1 ih =>
    simp only [all_pairs, List.flatMap_cons, List.length_append,
      List.length_map, List.length_cons] at *
    rw [ih]
    ring

theorem count_map_pair (a i j : Nat) : ∀ (r2 : List Nat),
    ((r2.map fun b => (a, b)).count (i, j))
      = if a = i then r2.count j else 0 := by
  intro r2
  induction r2 with
  | nil => simp
  | cons b r2 ih =>
    simp only [List.map_cons, List.count_cons, ih]
    by_cases ha : a = i
    · subst ha
      by_cases hb : b = j
      · subst hb
        simp
      · simp [hb, Prod.ext_iff]
    · simp [ha, Prod.ext_iff]

theorem all_pairs_count (i j : Nat) : ∀ (r1 r2 : List Nat),
    (all_pairs r1 r2).count (i, j) = r1.count i * r2.count j := by
  intro r1 r2
  induction r1 with
  | nil => simp [all_pairs]
  | cons a r1 ih =>
    simp only [all_pairs, List.flatMap_cons, List.count_append] at *
    rw [ih, count_map_pair, List.count_cons]
    by_cases ha : a = i
    · subst ha
      simp [Nat.add_mul]
      ring
    · simp [ha]

/-- C10: for every size `n` and every shuffle outcome (any permutations
`r1`, `r2` of `0..n-1`, including the unshuffled identity order),
`all_pairs` yields exactly `n * n` pairs, and every ordered pair `(i, j)`
with `i, j < n` (including the diagonal pairs) occurs exactly once. -/
theorem C10_all_pairs_exactly_once (n : Nat) (r1 r2 : List Nat)
    (h1 : r1.Perm (List.range n)) (h2 : r2.Perm (List.range n)) :
    (all_pairs r1 r2).length = n * n ∧
      ∀ i j, i < n → j < n → (all_pairs r1 r2).count (i, j) = 1 := by
  constructor
  · rw [all_pairs_length, h1.length_eq, h2.length_eq, List.length_range]
  · intro i j hi hj
    rw [all_pairs_count, h1.count_eq, h2.count_eq,
      List.count_eq_one_of_mem (List.nodup_range n) (List.mem_range.mpr hi),
      List.count_eq_one_of_mem (List.nodup_range n) (List.mem_range.mpr hj)]

theorem C10_all_pairs_exactly_once_witness :
    (all_pairs [1, 0] [0, 1]).length = 2 * 2
      ∧ (all_pairs [1, 0] [0, 1]).count (1, 0) = 1 :=
  ⟨(C10_all_pairs_exactly_once 2 [1, 0] [0, 1] (by decide) (by decide)).1,
    (C10_all_pairs_exactly_once 2 [1, 0] [0, 1] (by decide) (by decide)).2
      1 0 (by decide) (by decide)⟩

/-- C7: the reverse-cycle companion (modelled from the spec, its definition
being absent from the provided sources) maps a normalized closed path
`[home, a, ..., z, home]` to `[home, z, ..., a, home]` of the same length;
in particular it maps `[0, 3, 2, 1, 0]` to `[0, 1, 2, 3, 0]`. -/
theorem C7_compute_reverse_cycle_spec :
    (∀ (home : Nat) (mid : List Nat),
      compute_reverse_cycle (home :: (mid ++ [home]))
          = home :: (mid.reverse ++ [home])
        ∧ (compute_reverse_cycle (home :: (mid ++ [home]))).length
          = (home :: (mid ++ [home])).length)
    ∧ compute_reverse_cycle [0, 3, 2, 1, 0] = [0, 1, 2, 3, 0] := by
  refine ⟨?_, by decide⟩
  intro home mid
  constructor
  · simp [compute_reverse_cycle]
  · simp [compute_reverse_cycle]

/-- C2: the relocation operator `shift_cities` does not satisfy the claimed
invariant. For the base tour `[0, 1, 2]` and the ordered pair
`(i, j) = (2, 0)` (a pair with `i > j` that `all_pairs` always yields), the
produced candidate is `[0, 1, 2, 0, 1, 2]`: length 6 instead of 3, with
duplicated indices, not the base with the element at position 2 reinserted
at position 0. -/
theorem C2_shift_cities_breaks_invariant :
    shift_cities [0, 1, 2] [(2, 0)] = [[0, 1, 2, 0, 1, 2]]
      ∧ ([0, 1, 2, 0, 1, 2] : List Nat).length ≠ 3
      ∧ ¬ ([0, 1, 2, 0, 1, 2] : List Nat).Perm [0, 1, 2] := by
  refine ⟨by decide, by decide, ?_⟩
  intro hperm
  exact absurd hperm.length_eq (by decide)

/-- C1: counter-evidence for the claimed output shape of
`solve_tsp_hillclimb`. With `n = 2` cities, the complete non-negative cost
matrix that is constantly 1, `max_iter = 1`, `max_eval = 1`, and the random
outcome whose initial shuffle produces the tour `[1, 0]` (pair orders as
enumerated), the code returns `[0, 0]`: a list of length 2 that repeats
home and loses city 1, instead of a closed path of length `n + 1 = 3` whose
interior is a permutation of `{1}`. The cause is the rotation
`tour[home_index:] + tour[1:home_index + 1]` in `normalize_home_first`,
which drops `tour[0]` and duplicates home whenever home is not already
first. -/
theorem C1_solve_tsp_hillclimb_failing_input :
    solve_tsp_hillclimb (fun _ _ => 1) 1 1 (fun _ => [1, 0])
      (fun _ _ size => all_pairs (List.range size) (List.range size))
      (fun _ _ size => all_pairs (List.range size) (List.range size))
      = some [0, 0]
    ∧ ([0, 0] : List Nat).length ≠ 2 + 1 := by
  constructor
  · simp [solve_tsp_hillclimb, hillclimb_and_restart, restart_loop,
      hillclimb, climb_loop, climb_pass, restart_step, tour_length_cycle,
      normalize_home_first, List.range_succ, List.indexOf, List.findIdx,
      List.findIdx.go]
  · decide

/-- C9: counter-evidence for the claimed `n = 2` end-to-end behaviour. With
home plus one other point, strictly positive costs `cost(0,1) = 2` and
`cost(1,0) = 3`, `max_iter = 1`, `max_eval = 1`, and the random outcome
whose initial shuffle produces `[1, 0]`, `solve_tsp_hillclimb` returns
`[0, 0]` rather than the claimed `[0, 1, 0]` (same `normalize_home_first`
rotation slip as in the C1 analysis). -/
theorem C9_two_city_failing_input :
    solve_tsp_hillclimb
      (fun i j => if i = 0 ∧ j = 1 then 2 else if i = 1 ∧ j = 0 then 3 else 1)
      1 1 (fun _ => [1, 0])
      (fun _ _ size => all_pairs (List.range size) (List.range size))
      (fun _ _ size => all_pairs (List.range size) (List.range size))
      = some [0, 0]
    ∧ some [0, 0] ≠ some [0, 1, 0] := by
  constructor
  · simp [solve_tsp_hillclimb, hillclimb_and_restart, restart_loop,
      hillclimb, climb_loop, climb_pass, restart_step, tour_length_cycle,
      normalize_home_first, List.range_succ, List.indexOf, List.findIdx,
      List.findIdx.go]
  · decide
